import Mathlib

/-!
Verification of the candidate extraction and normalization pipeline of
`cmd/batch/trend_discovery.go` (URL classification, anchor/title text
normalization, bounded cross-source deduplication/aggregation).

The Go code is shallowly embedded: strings are modelled as `String` /
`List Char` (Go strings are UTF-8 byte strings; `len` on a Go string is its
byte count, modelled by `goLen`), Go's `regexp.ReplaceAllString` calls are
modelled by left-to-right non-overlapping scanners that mirror RE2's
leftmost-first matching for the concrete patterns appearing in the source,
and the network / HTML layer (`http.Get` + goquery selection) is abstracted
into an oracle `String → Option (List Anchor)` returning the selected
anchors of a fetched page, or `none` for a fetch/parse failure.
-/

/-- UTF-8 byte width of a character (Go `len` counts bytes). -/
def charBytes (c : Char) : Nat :=
  if c.val < 0x80 then 1
  else if c.val < 0x800 then 2
  else if c.val < 0x10000 then 3
  else 4

/-- Byte length of a Go string given as its character list. -/
def goLen (cs : List Char) : Nat := (cs.map charBytes).sum

/-- `pat` occurs at the head of the list (used to model RE2 literal matching
and Go's `strings.HasPrefix`-style checks). -/
def leadsWith : List Char → List Char → Bool
  | [], _ => true
  | _ :: _, [] => false
  | p :: ps, c :: cs => p == c && leadsWith ps cs

/-- Drop a leading occurrence of `pat`, returning the rest (`none` if `pat`
is not a leading segment). -/
def stripLead : List Char → List Char → Option (List Char)
  | [], cs => some cs
  | _ :: _, [] => none
  | p :: ps, c :: cs => if p == c then stripLead ps cs else none

/-- Go `strings.Contains` on character lists. -/
def hasSubL (l pat : List Char) : Bool :=
  match l with
  | [] => pat.isEmpty
  | _ :: r => leadsWith pat l || hasSubL r pat

/-- Go `strings.Contains` on strings. -/
def hasSubS (s pat : String) : Bool := hasSubL s.toList pat.toList

/-- Split at the first occurrence of `pat`: returns the part before it and
the part after it. -/
def splitSub : List Char → List Char → Option (List Char × List Char)
  | l, pat =>
    match l with
    | [] => if pat.isEmpty then some ([], []) else none
    | c :: r =>
      if leadsWith pat l then some ([], l.drop pat.length)
      else
        match splitSub r pat with
        | some (b, a) => some (c :: b, a)
        | none => none

/-- Drop everything up to and including the first occurrence of character
`cl` (used for the `[^x]*?x` closing part of the bracket regexes). -/
def afterChar (cl : Char) : List Char → Option (List Char)
  | [] => none
  | c :: r => if c == cl then some r else afterChar cl r

/-- Generic left-to-right non-overlapping removal scanner.  `m cs` returns
the rest of the input after a regex match starting exactly at `cs` (always
consuming at least one character), or `none` if no match starts here.  The
scanner tries each position from the left, removing matches; this is RE2's
`ReplaceAllString(_, "")` behaviour for the patterns of the source (none of
which can match the empty string).  Fuel is the input length. -/
def scanRemove (m : List Char → Option (List Char)) : Nat → List Char → List Char
  | _, [] => []
  | 0, cs => cs
  | fuel + 1, c :: cs =>
    match m (c :: cs) with
    | some rest => scanRemove m fuel rest
    | none => c :: scanRemove m fuel cs

/-- Run a removal scanner over a whole list. -/
def runScan (m : List Char → Option (List Char)) (cs : List Char) : List Char :=
  scanRemove m cs.length cs

/-- Go regexp `\s`: ASCII whitespace `[\t\n\f\r ]`. -/
def isGoSpace (c : Char) : Bool :=
  c == ' ' || c == '\t' || c == '\n' || c == Char.ofNat 12 || c == '\r'

/-- Go `unicode.IsSpace` (the White_Space property), used by
`strings.TrimSpace`. -/
def isUniSpace (c : Char) : Bool :=
  let n := c.toNat
  n == 0x20 || (0x9 ≤ n && n ≤ 0xD) || n == 0x85 || n == 0xA0 ||
  n == 0x1680 || (0x2000 ≤ n && n ≤ 0x200A) || n == 0x2028 || n == 0x2029 ||
  n == 0x202F || n == 0x205F || n == 0x3000

/-- RE2 `\w` / word character for `\b`: `[0-9A-Za-z_]`. -/
def isWordChar (c : Char) : Bool :=
  ('0' ≤ c && c ≤ '9') || ('a' ≤ c && c ≤ 'z') || ('A' ≤ c && c ≤ 'Z') || c == '_'

/-- ASCII decimal digit (RE2 `\d`). -/
def isDigitC (c : Char) : Bool := '0' ≤ c && c ≤ '9'

/-- ASCII lowercase letter (`[a-z]`). -/
def isLowerAZ (c : Char) : Bool := 'a' ≤ c && c ≤ 'z'

/-- Try a list of literal alternatives in order at the head of the input
(RE2 alternation; the honorific alternatives have pairwise distinct first
characters, so order is immaterial here). -/
def tryTokens : List (List Char) → List Char → Option (List Char)
  | [], _ => none
  | t :: ts, cs =>
    match stripLead t cs with
    | some r => some r
    | none => tryTokens ts cs

/-- The honorific tokens of `\s*(?:さん|氏|様|ちゃん|君)\s*`. -/
def honoTokens : List (List Char) :=
  [String.toList "さん", String.toList "氏", String.toList "様",
   String.toList "ちゃん", String.toList "君"]

/-- Matcher for `\s*(?:さん|氏|様|ちゃん|君)\s*` at the current position:
greedy whitespace run, an honorific token, greedy trailing whitespace. -/
def matchHono (cs : List Char) : Option (List Char) :=
  match tryTokens honoTokens (cs.dropWhile isGoSpace) with
  | some r => some (r.dropWhile isGoSpace)
  | none => none

/-- Matcher for the bracket-removal regexes: optional leading `\s*` (for the
ASCII `(...)` and `[...]` forms), an opening bracket, content not containing
the closing bracket, the closing bracket. -/
def matchBracket (lead : Bool) (op cl : Char) (cs : List Char) : Option (List Char) :=
  match (if lead then cs.dropWhile isGoSpace else cs) with
  | [] => none
  | c :: r => if c == op then afterChar cl r else none

/-- Remove every occurrence of a literal pattern (Go `strings.ReplaceAll`
with replacement `""`, also RE2 replace of a literal pattern): scans left to
right without rescanning produced text. -/
def removeSub (pat : List Char) (cs : List Char) : List Char :=
  if pat.isEmpty then cs else runScan (stripLead pat) cs

/-- Remove all occurrences of a single character
(`strings.ReplaceAll s x ""`). -/
def removeChar (x : Char) (cs : List Char) : List Char := cs.filter (· != x)

/-- Replace every occurrence of character `x` by `y`
(`strings.ReplaceAll s x y`). -/
def mapChar (x y : Char) (cs : List Char) : List Char :=
  cs.map (fun c => if c == x then y else c)

/-- `\b[a-zA-Z0-9_]{3,15}\b` removal.  Because `\b` bounds both sides, the
matches are exactly the maximal word-character runs whose length lies in
`[3,15]`; the scanner processes whole runs so that a too-long run is not
re-entered mid-run. -/
def scanWordRuns : Nat → List Char → List Char
  | _, [] => []
  | 0, cs => cs
  | fuel + 1, c :: cs =>
    if isWordChar c then
      let run := (c :: cs).takeWhile isWordChar
      let rest := (c :: cs).dropWhile isWordChar
      if 3 ≤ run.length && run.length ≤ 15 then scanWordRuns fuel rest
      else run ++ scanWordRuns fuel rest
    else c :: scanWordRuns fuel cs

/-- The tokens of `\b(?:イコット|クチコミ|食べログ)\b`. -/
def kataTokens : List (List Char) :=
  [String.toList "イコット", String.toList "クチコミ", String.toList "食べログ"]

/-- Try the bounded katakana tokens at the head of the input, also returning
the token's last character (needed to carry the `\b` context forward).
Since these tokens contain no ASCII word character, the leading `\b` holds
iff the previous character is a word character, and the trailing `\b` holds
iff the next character is a word character. -/
def tryTokensB : List (List Char) → List Char → Option (Char × List Char)
  | [], _ => none
  | t :: ts, cs =>
    match stripLead t cs with
    | some rest =>
      match rest with
      | c :: _ => if isWordChar c then some (t.getLastD ' ', rest) else tryTokensB ts cs
      | [] => tryTokensB ts cs
    | none => tryTokensB ts cs

/-- Scanner for `\b(?:イコット|クチコミ|食べログ)\b`, tracking the previous
character of the input to evaluate the left `\b`. -/
def scanKataB : Nat → Option Char → List Char → List Char
  | _, _, [] => []
  | 0, _, cs => cs
  | fuel + 1, prev, c :: cs =>
    match (if (match prev with | some p => isWordChar p | none => false) then
             tryTokensB kataTokens (c :: cs)
           else none) with
    | some (last, rest) => scanKataB fuel (some last) rest
    | none => c :: scanKataB fuel (some c) cs

/-- Matcher for `人気店\d*選`. -/
def matchNinki (cs : List Char) : Option (List Char) :=
  match stripLead (String.toList "人気店") cs with
  | none => none
  | some r1 =>
    match r1.dropWhile isDigitC with
    | c :: r2 => if c == '選' then some r2 else none
    | [] => none

/-- Matcher for `[\d]+選`: a digit run (maximal, since a shorter greedy
backtrack would leave a digit where `選` is required) followed by `選`. -/
def matchDigitsSen (cs : List Char) : Option (List Char) :=
  match cs with
  | c :: _ =>
    if isDigitC c then
      match cs.dropWhile isDigitC with
      | d :: r2 => if d == '選' then some r2 else none
      | [] => none
    else none
  | [] => none

/-- The character class of `の[お店|グルメ|ランチ|名店|人気店]` (a class, not
an alternation: the single characters listed, including `|`). -/
def noClassChars : List Char :=
  ['お', '店', '|', 'グ', 'ル', 'メ', 'ラ', 'ン', 'チ', '名', '人', '気']

/-- Matcher for `の[お店|グルメ|ランチ|名店|人気店]`. -/
def matchNoClass (cs : List Char) : Option (List Char) :=
  match cs with
  | c1 :: c2 :: r => if c1 == 'の' && noClassChars.contains c2 then some r else none
  | _ => none

/-- Matcher for `～[^～]*～` (fullwidth tilde U+FF5E): content cannot contain
the delimiter, so the match ends at the first following tilde. -/
def matchTilde (cs : List Char) : Option (List Char) :=
  match cs with
  | c :: r => if c == '～' then afterChar '～' r else none
  | [] => none

/-- Collapse every maximal run of Go `\s` whitespace to a single space
(`regexp \s+` replaced by `" "`).  The flag records whether we are inside a
run already replaced. -/
def collapseWsAux : Bool → List Char → List Char
  | _, [] => []
  | inRun, c :: r =>
    if isGoSpace c then
      if inRun then collapseWsAux true r else ' ' :: collapseWsAux true r
    else c :: collapseWsAux false r

/-- Go `strings.TrimSpace` (Unicode White_Space on both ends). -/
def goTrimSpace (cs : List Char) : List Char :=
  ((cs.dropWhile isUniSpace).reverse.dropWhile isUniSpace).reverse

/-- The apostrophe character U+0027 (used inside one stoplist entry). -/
def apos : String := ⟨[Char.ofNat 39]⟩

/-- The double-quote character U+0022. -/
def dquote : Char := Char.ofNat 34

/-- The curated reviewer-handle stoplist (`specificUsers` in the source), in
source order; each is removed as a literal substring. -/
def specificUsers : List String :=
  ["稲毛屋", "maro-j", "はらぺこ大将", "アユボワン！", "komedarian", "ものごころ",
   "nobuta-nobu", "ramen-king",
   "グルマン", "食いしん坊", "食べログ太郎", "レビュアー", "レビュアーマスター",
   "美食家", "グルメキング",
   "グルメ探偵", "食べログレビュアー", "アユボワン",
   "honnesan", "taniy", "dragonfly8810", "ropefish", "吉田R",
   "Wine, women an" ++ apos ++ " song", "Shoebill",
   "クスクス", "トカトントンガラシ", "びしくれた", "おもひで定食", "たけ1025",
   "ヘル", "たらく 日暮里店",
   "ノブヒロ＠上野", "養和軒", "イドカヤ７９７", "シルクロード", "たけとんたんた",
   "カレーおじさん＼／", "ゆすけ",
   "玄海寿司 本店", "南幌"]

/-- The allow-set of the validity gate:
`[a-zA-Z0-9\p{Han}\p{Hiragana}\p{Katakana}]`, with the Unicode scripts
modelled by their principal ranges. -/
def isAllowedChar (c : Char) : Bool :=
  let n := c.toNat
  (0x30 ≤ n && n ≤ 0x39) || (0x41 ≤ n && n ≤ 0x5A) || (0x61 ≤ n && n ≤ 0x7A) ||
  -- Hiragana
  (0x3041 ≤ n && n ≤ 0x3096) || (0x309D ≤ n && n ≤ 0x309F) ||
  -- Katakana
  (0x30A1 ≤ n && n ≤ 0x30FA) || (0x30FD ≤ n && n ≤ 0x30FF) ||
  (0x31F0 ≤ n && n ≤ 0x31FF) || (0xFF66 ≤ n && n ≤ 0xFF9D) ||
  -- Han
  n == 0x3005 || n == 0x3007 || (0x3400 ≤ n && n ≤ 0x4DBF) ||
  (0x4E00 ≤ n && n ≤ 0x9FFF) || (0xF900 ≤ n && n ≤ 0xFAD9) ||
  (0x20000 ≤ n && n ≤ 0x2FFFF)

/-- The cleaning stages of `extractStoreName`, in source order, before the
final validity gate.  Stage 1 (separator truncation) keeps the text before
the first `|`, then before the first `-`, then before the first `/`
(`strings.Split(title, sep)[0]`, which is the whole string when the
separator is absent, so the `strings.Contains` guards are subsumed). -/
def cleanTitle (cs0 : List Char) : List Char :=
  let s1 := ((cs0.takeWhile (· ≠ '|')).takeWhile (· ≠ '-')).takeWhile (· ≠ '/')
  let s2 := runScan matchHono s1
  let s3 := removeSub (String.toList "（名無し）") s2
  let s4 := runScan (matchBracket true '(' ')') s3
  let s5 := runScan (matchBracket true '[' ']') s4
  let s6 := runScan (matchBracket false '【' '】') s5
  let s7 := runScan (matchBracket false '《' '》') s6
  let s8 := specificUsers.foldl (fun t u => removeSub u.toList t) s7
  let s9 := scanWordRuns s8.length s8
  let s10 := scanKataB s9.length none s9
  let s11 := runScan matchNinki s10
  let s12 := removeSub (String.toList "おすすめランチ") s11
  let s13 := runScan matchNoClass s12
  let s14 := runScan matchDigitsSen s13
  let s15 := removeSub (String.toList "【最新版】") s14
  let s16 := runScan matchTilde s15
  let s17 := removeSub (String.toList "食べログまとめ") s16
  let s18 := removeSub (String.toList "...") s17
  let s19 := mapChar '　' ' ' s18
  let s20 := removeChar '｜' s19
  let s21 := removeChar 'ー' s20
  let s22 := removeChar '～' s21
  let s23 := removeChar '『' s22
  let s24 := removeChar '』' s23
  let s25 := removeChar '「' s24
  let s26 := removeChar '」' s25
  let s27 := removeChar dquote s26
  goTrimSpace (collapseWsAux false s27)

/-- The validity gate of `extractStoreName`: reject when the cleaned text is
shorter than 2 bytes (Go `len` counts UTF-8 bytes) or contains no character
of the allow-set. -/
def gateRejects (cs : List Char) : Bool :=
  goLen cs < 2 || !(cs.any isAllowedChar)

/-- `extractStoreName` of the source: the cleaning pipeline followed by the
validity gate; the empty string signals rejection. -/
def extractStoreName (title : String) : String :=
  let t := cleanTitle title.toList
  if gateRejects t then "" else ⟨t⟩

/-- The fields of Go's `url.URL` that the source reads (`Host`, `Path`) plus
the scheme, from which `URL.String()` is reconstructed.  Query and fragment
components are not modelled (none of the source's checks involve them). -/
structure GoURL where
  scheme : String
  host : String
  path : String
deriving DecidableEq, Repr

/-- Go `URL.String()` for the modelled fields. -/
def GoURL.render (u : GoURL) : String := u.scheme ++ "://" ++ u.host ++ u.path

/-- Go `url.Parse` restricted to absolute URLs of shape
`scheme://host/path` (the only shape the pipeline feeds it; a string with
no `://` is treated as unparseable, which makes the caller skip the item
just as Go's empty-host parse result does). -/
def parseURL (s : String) : Option GoURL :=
  match splitSub s.toList (String.toList "://") with
  | none => none
  | some (sch, rest) =>
    some ⟨⟨sch⟩, ⟨rest.takeWhile (· ≠ '/')⟩, ⟨rest.dropWhile (· ≠ '/')⟩⟩

/-- The excluded path patterns of `isStorePage` (all the source's excluded
"regexes" are literal substrings), in source order. -/
def excludedPatterns : List String :=
  ["/dtlrvwlst/", "/rvwr/", "/user/", "/member/", "/review/", "/diary/",
   "/photo/", "/dtlphotolst/", "/dtlmenu/", "/dtlmap/", "/help/", "/terms/",
   "/sitemap/", "/rstLst/", "/word/", "/cond/", "/catLst/", "/aream/",
   "/wiki/", "/favorite/", "/lunch/", "/dinner/", "/party/", "/matome/"]

/-- Consume the store-page tail anchored at the end of the URL string:
`tabelog\.com/[a-z]{2,8}/A\d{3,4}/A\d{3,6}/(\d{8}|\d{10})/?$`.  Each
variable-width piece is delimited by a character outside its class, so the
greedy maximal run is the only possible match. -/
def matchStoreTail (cs : List Char) : Bool :=
  match stripLead (String.toList "tabelog.com/") cs with
  | none => false
  | some t0 =>
    let r1 := t0.takeWhile isLowerAZ
    match t0.dropWhile isLowerAZ with
    | '/' :: t2 =>
      (2 ≤ r1.length && r1.length ≤ 8) &&
      (match t2 with
       | 'A' :: t3 =>
         let r2 := t3.takeWhile isDigitC
         match t3.dropWhile isDigitC with
         | '/' :: t5 =>
           (3 ≤ r2.length && r2.length ≤ 4) &&
           (match t5 with
            | 'A' :: t6 =>
              let r3 := t6.takeWhile isDigitC
              match t6.dropWhile isDigitC with
              | '/' :: t8 =>
                (3 ≤ r3.length && r3.length ≤ 6) &&
                (let r4 := t8.takeWhile isDigitC
                 (r4.length == 8 || r4.length == 10) &&
                 (match t8.dropWhile isDigitC with
                  | [] => true
                  | ['/'] => true
                  | _ => false))
              | _ => false
            | _ => false)
         | _ => false
       | _ => false)
    | _ => false

/-- Some suffix of the list satisfies `f` (an unanchored-start regex match
whose pattern is `$`-anchored at the end). -/
def anySuffix (f : List Char → Bool) : List Char → Bool
  | [] => f []
  | c :: r => f (c :: r) || anySuffix f r

/-- `storePageRegex.MatchString(u.String())` of the source. -/
def storePageRegexMatch (s : String) : Bool := anySuffix matchStoreTail s.toList

/-- `isStorePage` of the source: host must contain `tabelog.com`, the path
must not contain `/en/` nor any excluded pattern, and the rendered URL must
match the store-page regex. -/
def isStorePage (u : GoURL) : Bool :=
  if !(hasSubS u.host "tabelog.com") then false
  else if hasSubS u.path "/en/" then false
  else if excludedPatterns.any (fun p => hasSubS u.path p) then false
  else storePageRegexMatch u.render

/-- Strip a single trailing `/` (the URL normalization producing the
CandidateKey in all three discovery branches). -/
def stripSlash (s : String) : String :=
  match s.toList.getLast? with
  | some '/' => ⟨s.toList.dropLast⟩
  | _ => s

/-- CandidateKey of a parsed URL: rendered string with a single trailing
separator stripped. -/
def normKey (u : GoURL) : String := stripSlash u.render

/-- One anchor element selected by the goquery selectors: its `href`
attribute and its visible text (`s.Text()`).  An anchor with no `href`
attribute is simply not listed. -/
structure Anchor where
  href : String
  text : String
deriving DecidableEq, Repr

/-- `baseURL.ResolveReference(parsed)` for the href forms the pipeline
meets: an absolute URL stands for itself, a root-relative path resolves
against the base's scheme and host.  Other relative forms are outside the
model and treated as unresolvable (the anchor is skipped). -/
def resolveHref (base : GoURL) (href : String) : Option GoURL :=
  if hasSubS href "://" then parseURL href
  else
    match href.toList with
    | '/' :: _ => some { base with path := href }
    | _ => none

/-- Page fetching oracle: `fetch url` is the anchor list selected from the
fetched page's HTML, or `none` when the `http.Get` or the goquery parse
fails. -/
def FetchOracle : Type := String → Option (List Anchor)

/-- One anchor step shared by `fetchStoreLinksFromMatome` and
`fetchLinksFromListingPage`: resolve the href, keep only store pages,
normalize the URL into the CandidateKey, skip keys already seen, normalize
the trimmed anchor text, and only on success record the mapping and mark
the key seen.  State is (insertion-ordered mapping, seen set). -/
def processAnchor (base : GoURL) (st : List (String × String) × List String)
    (a : Anchor) : List (String × String) × List String :=
  match resolveHref base a.href with
  | none => st
  | some resolved =>
    if isStorePage resolved then
      let key := normKey resolved
      if st.2.contains key then st
      else
        let cleanText := extractStoreName ⟨goTrimSpace a.text.toList⟩
        if cleanText ≠ "" then (st.1 ++ [(key, cleanText)], key :: st.2)
        else st
    else st

/-- Shared body of the two extraction functions: fetch the page (failure
returns the empty mapping and leaves the seen set untouched), re-parse the
base URL as the source does, and fold the anchor steps over the page's
anchors in document order.  The returned mapping is the Go map in insertion
order; the mutated-in-place `seenURLs` is returned explicitly. -/
def extractStoreLinks (fetch : FetchOracle) (urlStr : String)
    (seenURLs : List String) : List (String × String) × List String :=
  match fetch urlStr with
  | none => ([], seenURLs)
  | some anchors =>
    match parseURL urlStr with
    | none => ([], seenURLs)
    | some base => anchors.foldl (processAnchor base) ([], seenURLs)

/-- `fetchStoreLinksFromMatome` of the source (hub-summary selector set,
abstracted into the oracle). -/
def fetchStoreLinksFromMatome (fetch : FetchOracle) (urlStr : String)
    (seenURLs : List String) : List (String × String) × List String :=
  extractStoreLinks fetch urlStr seenURLs

/-- `fetchLinksFromListingPage` of the source (listing selector set,
abstracted into the oracle; the body is the same as the matome variant). -/
def fetchLinksFromListingPage (fetch : FetchOracle) (urlStr : String)
    (seenURLs : List String) : List (String × String) × List String :=
  extractStoreLinks fetch urlStr seenURLs

/-- The aggregation state of `SearchBrave`'s scan loop.  `admitted` is a
ghost field recording, for each appended name, the CandidateKey it was
admitted under ((key, name) in admission order); the source keeps only the
names. -/
structure AggState where
  uniqueTitles : List String
  combinedTitles : String
  admitted : List (String × String)
  seenURLs : List String
  collectedCount : Nat
deriving DecidableEq, Repr

/-- The state at the start of a run. -/
def initAgg : AggState := ⟨[], "", [], [], 0⟩

/-- `collectedCount >= maxTitles` for the given cap (`none` = uncapped
analysis variant; the source runs with cap `some 3`). -/
def capReached (cap : Option Nat) (count : Nat) : Bool :=
  match cap with
  | some k => count ≥ k
  | none => false

/-- `collectedCount < maxTitles` for the given cap. -/
def underCap (cap : Option Nat) (count : Nat) : Bool :=
  match cap with
  | some k => count < k
  | none => true

/-- Append one admitted (key, name) pair to the aggregation state
(`uniqueTitles = append(...)`, `combinedTitles += name + "; "`,
`collectedCount++`). -/
def pushName (st : AggState) (key name : String) : AggState :=
  { st with
    uniqueTitles := st.uniqueTitles ++ [name]
    combinedTitles := st.combinedTitles ++ name ++ "; "
    admitted := st.admitted ++ [(key, name)]
    collectedCount := st.collectedCount + 1 }

/-- The `for _, storeTitle := range storeLinks` append loop of the matome /
listing branches: each entry is appended while `collectedCount < maxTitles`
holds; entries arriving above the cap are dropped (their keys stay seen). -/
def appendTitles (cap : Option Nat) : List (String × String) → AggState → AggState
  | [], st => st
  | (k, n) :: rest, st =>
    appendTitles cap rest
      (if underCap cap st.collectedCount then pushName st k n else st)

/-- Go map iteration order oracle: the order in which `range` enumerates the
extracted mapping.  The Go runtime randomizes it; theorems assume only that
it is a permutation of the entries. -/
def EnumOracle : Type := List (String × String) → List (String × String)

/-- One Brave search-result item: a JSON object with `title` and `url`
strings, or anything else (a non-map item or one missing either field),
which the loop skips while still consuming a loop index. -/
inductive BraveItem where
  | malformed
  | item (title url : String)
deriving DecidableEq, Repr

/-- Processing of one well-formed search-result item inside `SearchBrave`'s
loop: parse the URL (failure skips), compute the CandidateKey, skip seen
keys and non-tabelog hosts, then branch on matome / listing / direct store
page. -/
def processResult (cap : Option Nat) (fetchM fetchL : FetchOracle)
    (enum : EnumOracle) (st : AggState) (title urlStr : String) : AggState :=
  match parseURL urlStr with
  | none => st
  | some u =>
    let key := stripSlash u.render
    if st.seenURLs.contains key then st
    else if !(hasSubS u.host "tabelog.com") then st
    else if hasSubS u.path "/matome/" then
      let res := fetchStoreLinksFromMatome fetchM urlStr st.seenURLs
      appendTitles cap (enum res.1) { st with seenURLs := res.2 }
    else if hasSubS u.path "/rstLst/" then
      let res := fetchLinksFromListingPage fetchL urlStr st.seenURLs
      appendTitles cap (enum res.1) { st with seenURLs := res.2 }
    else if isStorePage u then
      let cleanT := extractStoreName title
      if cleanT ≠ "" && underCap cap st.collectedCount then
        { (pushName st key cleanT) with seenURLs := key :: st.seenURLs }
      else st
    else st

/-- `SearchBrave`'s scan loop over the decoded result items: `i` is the loop
index; the loop breaks as soon as `collectedCount >= maxTitles` or
`i >= processingLimit` (50) — checked at the top of every iteration. -/
def braveLoop (cap : Option Nat) (fetchM fetchL : FetchOracle)
    (enum : EnumOracle) : List BraveItem → Nat → AggState → AggState
  | [], _, st => st
  | it :: rest, i, st =>
    if capReached cap st.collectedCount || i ≥ 50 then st
    else
      let st' :=
        match it with
        | .malformed => st
        | .item title urlStr => processResult cap fetchM fetchL enum st title urlStr
      braveLoop cap fetchM fetchL enum rest (i + 1) st'

/-- Go `strings.Join l "; "`. -/
def goJoin : List String → String
  | [] => ""
  | [a] => a
  | a :: rest => a ++ "; " ++ goJoin rest

/-- `SearchBrave` of the source, shallowly embedded from the point where the
Brave response has been decoded into result items (the HTTP and JSON layers
above that point only produce this list or abort the run).  Returns
`(combinedTitles, topTitle)`; `topTitle = strings.Join(uniqueTitles, "; ")`,
and `("", "")` when nothing was collected.  The source's
`maxTitles = 3` is the `some 3` cap. -/
def SearchBrave (fetchM fetchL : FetchOracle) (enum : EnumOracle)
    (results : List BraveItem) : String × String :=
  let st := braveLoop (some 3) fetchM fetchL enum results 0 initAgg
  if st.uniqueTitles.isEmpty then ("", "")
  else (st.combinedTitles, goJoin st.uniqueTitles)

/-- `combinedTitles` shape: each name followed by `"; "`, concatenated in
order. -/
def semiJoin : List String → String
  | [] => ""
  | n :: rest => n ++ "; " ++ semiJoin rest

/-- Relation between a state of the capped run (`cap = some 3`, as the
source runs) and the state of the identical scan with the cap removed:
either the runs have not diverged yet (below the cap, with
`collectedCount` tracking the number of collected names, as in the source),
or the capped run is frozen holding exactly the first three names the
uncapped run admitted. -/
def CapRel (c u : AggState) : Prop :=
  (c = u ∧ u.collectedCount ≤ 3 ∧ u.collectedCount = u.uniqueTitles.length) ∨
  (c.collectedCount = 3 ∧ c.uniqueTitles = u.uniqueTitles.take 3 ∧
   3 ≤ u.uniqueTitles.length)

/-- Invariant of the extraction functions relative to the seen set they were
called with: the produced mapping has pairwise-distinct keys, every produced
key is newly seen (recorded in the returned seen set, absent from the
initial one), and the initial seen set is preserved. -/
def ExtInv (seen0 : List String) (p : List (String × String) × List String) : Prop :=
  (p.1.map Prod.fst).Nodup ∧
  (∀ k ∈ p.1.map Prod.fst, k ∈ p.2 ∧ k ∉ seen0) ∧
  (∀ x ∈ seen0, x ∈ p.2)

/-- Aggregation-state invariant for cross-branch deduplication: admitted
CandidateKeys are pairwise distinct, every admitted key is in the seen set,
and `uniqueTitles` is exactly the admitted names in order. -/
def GoodAgg (st : AggState) : Prop :=
  (st.admitted.map Prod.fst).Nodup ∧
  (∀ k ∈ st.admitted.map Prod.fst, k ∈ st.seenURLs) ∧
  st.uniqueTitles = st.admitted.map Prod.snd

/-- `s` ends in `pat`. -/
def endsIn (s pat : String) : Bool := leadsWith pat.toList.reverse s.toList.reverse

/-- Concrete inputs used by counterexamples and witnesses. -/
def hubURL : String := "https://tabelog.com/matome/12345/"

/-- A concrete tabelog detail-page URL. -/
def storeURL1 : String := "https://tabelog.com/tokyo/A1311/A131105/13034566/"

/-- A second concrete tabelog detail-page URL. -/
def storeURL2 : String := "https://tabelog.com/tokyo/A1311/A131105/13034567/"

/-- A third concrete tabelog detail-page URL. -/
def storeURL3 : String := "https://tabelog.com/tokyo/A1311/A131105/13034568/"

/-- A fourth concrete tabelog detail-page URL. -/
def storeURL4 : String := "https://tabelog.com/tokyo/A1311/A131105/13034569/"

/-- A fetch oracle serving one hub page that links two distinct detail
pages with clean anchor texts. -/
def fetchC1 : FetchOracle := fun u =>
  if u = hubURL then some [⟨storeURL1, "店舗あ"⟩, ⟨storeURL2, "店舗い"⟩] else none

/-- A single search result pointing at the hub page. -/
def resultsC1 : List BraveItem := [.item "まとめ" hubURL]

/-- A fetch oracle for which every fetch fails. -/
def noFetch : FetchOracle := fun _ => none

/-- Four direct detail-page results with distinct URLs and clean titles. -/
def results4 : List BraveItem :=
  [.item "店舗あ" storeURL1, .item "店舗い" storeURL2,
   .item "店舗う" storeURL3, .item "店舗え" storeURL4]

/-- One direct detail-page result. -/
def results1 : List BraveItem := [.item "店舗あ" storeURL1]

/-- The parsed form of `storeURL1`. -/
def storeUW : GoURL := ⟨"https", "tabelog.com", "/tokyo/A1311/A131105/13034566/"⟩

/-- The parsed form of `hubURL`. -/
def baseW : GoURL := ⟨"https", "tabelog.com", "/matome/12345/"⟩

/-- The CandidateKey of `storeURL1`. -/
def keyW : String := stripSlash storeURL1

/-- A hub page carrying three anchors, of which at most one can ever be
admitted: a review sub-page link (never classified a store page), a store
anchor with a clean title, and a second anchor to the same store URL
(always deduplicated against the first or the ambient seen set). -/
def hubAnchorsW : List Anchor :=
  [⟨"https://tabelog.com/tokyo/A1311/A131105/13034566/review/999/", "口コミ"⟩,
   ⟨storeURL1, "店舗あ"⟩,
   ⟨storeURL1, "店舗い"⟩]

/-- A fetch oracle serving the three-anchor hub page. -/
def fetchC1w : FetchOracle := fun u =>
  if u = hubURL then some hubAnchorsW else none

set_option maxRecDepth 4000000

set_option maxHeartbeats 2000000

theorem toList_mk (t : List Char) : (String.mk t).toList = t := rfl

theorem mk_eq_empty_iff (t : List Char) : String.mk t = "" ↔ t = [] := by
  constructor
  · intro h
    have := congrArg String.toList h
    simpa using this
  · intro h
    simp [h]

theorem charBytes_pos (c : Char) : 1 ≤ charBytes c := by
  unfold charBytes
  split <;> [skip; split <;> [skip; split]] <;> omega

/-- C5 (corrected).  Whenever the host does not contain `tabelog.com` as a
substring, `isStorePage` returns false.  (The claim's stronger statement —
false for every host other than the target domain — fails, see the
counterexample: the source only tests substring containment of the host and
an unanchored regex over the whole URL string.) -/
theorem C5_amended_host_scope (u : GoURL) (h : hasSubS u.host "tabelog.com" = false) :
    isStorePage u = false := by
  simp [isStorePage, h]

/-- Witness for C5_amended_host_scope at a concrete non-tabelog host. -/
theorem C5_witness :
    isStorePage ⟨"https", "example.com", "/tokyo/A1311/A131105/13034566/"⟩ = false :=
  C5_amended_host_scope _ (by decide)

/-- C5 counterexample: `eviltabelog.com` is neither the target domain nor a
subdomain of it, yet a detail-shaped path classifies as a store page. -/
theorem C5_counterexample :
    isStorePage ⟨"https", "eviltabelog.com", "/tokyo/A1311/A131105/13034566/"⟩ = true ∧
    "eviltabelog.com" ≠ "tabelog.com" ∧
    endsIn "eviltabelog.com" ".tabelog.com" = false := by
  decide

/-- C8 (confirmed).  The concrete classifications of the claim: the detail
URL with and without trailing separator are store pages; the review
sub-page, the `/en/` variant and the non-tabelog host are not. -/
theorem C8_detail_page_shape :
    isStorePage ⟨"https", "tabelog.com", "/tokyo/A1311/A131105/13034566/"⟩ = true ∧
    isStorePage ⟨"https", "tabelog.com", "/tokyo/A1311/A131105/13034566"⟩ = true ∧
    isStorePage ⟨"https", "tabelog.com", "/tokyo/A1311/A131105/13034566/review/123/"⟩ = false ∧
    isStorePage ⟨"https", "tabelog.com", "/en/tokyo/A1311/A131105/13034566/"⟩ = false ∧
    isStorePage ⟨"https", "example.com", "/tokyo/A1311/A131105/13034566/"⟩ = false := by
  decide

/-- C9 (confirmed).  For an anchor resolving to a store page whose key is
not yet seen: a rejected normalization leaves both the mapping and the seen
set untouched (so the key stays admissible), and a successful normalization
records the key as seen and adds the mapping. -/
theorem C9_rejection_no_mark (base : GoURL) (m : List (String × String))
    (seen : List String) (a : Anchor) (u : GoURL)
    (hres : resolveHref base a.href = some u)
    (hstore : isStorePage u = true)
    (hseen : seen.contains (normKey u) = false) :
    (extractStoreName ⟨goTrimSpace a.text.toList⟩ = "" →
      processAnchor base (m, seen) a = (m, seen)) ∧
    (extractStoreName ⟨goTrimSpace a.text.toList⟩ ≠ "" →
      processAnchor base (m, seen) a =
        (m ++ [(normKey u, extractStoreName ⟨goTrimSpace a.text.toList⟩)],
         normKey u :: seen)) := by
  have hseen' : normKey u ∉ seen := by simpa using hseen
  constructor <;> intro h <;> simp [processAnchor, hres, hstore, hseen', h] <;> exact h

/-- Witness for C9_rejection_no_mark: an anchor with admissible URL whose
text normalizes to empty changes nothing. -/
theorem C9_witness :
    processAnchor ⟨"https", "tabelog.com", "/matome/12345/"⟩ ([], [])
      ⟨"https://tabelog.com/tokyo/A1311/A131105/13034566/", "→"⟩ = ([], []) :=
  (C9_rejection_no_mark ⟨"https", "tabelog.com", "/matome/12345/"⟩ [] []
    ⟨"https://tabelog.com/tokyo/A1311/A131105/13034566/", "→"⟩
    ⟨"https", "tabelog.com", "/tokyo/A1311/A131105/13034566/"⟩
    (by decide) (by decide) (by decide)).1 (by decide)

/-- C10 (confirmed).  A page-level fetch or parse failure returns the empty
mapping and leaves the shared seen set exactly as it was. -/
theorem C10_fetch_failure_atomic (fetch : FetchOracle) (urlStr : String)
    (seen : List String) (h : fetch urlStr = none) :
    fetchStoreLinksFromMatome fetch urlStr seen = ([], seen) ∧
    fetchLinksFromListingPage fetch urlStr seen = ([], seen) := by
  simp [fetchStoreLinksFromMatome, fetchLinksFromListingPage, extractStoreLinks, h]

/-- Witness for C10_fetch_failure_atomic at a concrete failing fetch. -/
theorem C10_witness :
    fetchStoreLinksFromMatome noFetch hubURL ["k"] = ([], ["k"]) :=
  (C10_fetch_failure_atomic noFetch hubURL ["k"] rfl).1

theorem extractStoreName_eq (s : String) :
    extractStoreName s =
      if gateRejects (cleanTitle s.toList) = true then ""
      else String.mk (cleanTitle s.toList) := rfl

theorem gateRejects_iff (cs : List Char) :
    gateRejects cs = true ↔ (goLen cs < 2 ∨ cs.any isAllowedChar = false) := by
  simp only [gateRejects, Bool.or_eq_true, decide_eq_true_eq, Bool.not_eq_true']

/-- C7 (corrected).  The rejection condition of the normalizer, with the
length measured in UTF-8 bytes as Go's `len` does (the claim's
character-count reading fails, see the counterexample): the result is empty
iff the cleaned text is shorter than 2 bytes or contains no allowed
character; and any cleaned text of exactly two characters whose first
character is allowed (in particular 2-character CJK or alphanumeric
strings) is accepted verbatim. -/
theorem C7_amended_validity_gate (s : String) :
    (extractStoreName s = "" ↔
      (goLen (cleanTitle s.toList) < 2 ∨
       (cleanTitle s.toList).any isAllowedChar = false)) ∧
    (∀ c₁ c₂, cleanTitle s.toList = [c₁, c₂] → isAllowedChar c₁ = true →
      extractStoreName s = String.mk [c₁, c₂]) := by
  have he := extractStoreName_eq s
  constructor
  · by_cases hg : gateRejects (cleanTitle s.toList) = true
    · rw [he, if_pos hg]
      exact iff_of_true rfl ((gateRejects_iff _).mp hg)
    · have hgf : gateRejects (cleanTitle s.toList) = false := by simpa using hg
      rw [he, if_neg hg]
      refine iff_of_false ?_ ?_
      · rw [mk_eq_empty_iff]
        intro hnil
        rw [hnil] at hgf
        exact absurd hgf (by decide)
      · intro hcond
        rw [(gateRejects_iff _).mpr hcond] at hgf
        exact absurd hgf (by decide)
  · intro c₁ c₂ hcln hall
    have hgf : ¬ gateRejects (cleanTitle s.toList) = true := by
      rw [hcln]
      intro hR
      rcases (gateRejects_iff _).mp hR with h1 | h2
      · have p1 := charBytes_pos c₁
        have p2 := charBytes_pos c₂
        simp only [goLen, List.map_cons, List.map_nil, List.sum_cons,
          List.sum_nil] at h1
        omega
      · rw [List.any_cons, hall] at h2
        simp at h2
    rw [he, if_neg hgf, hcln]

/-- C7 counterexample: a single katakana character survives cleaning
unchanged (one character, three UTF-8 bytes) and is accepted, refuting the
claim that every cleaned string of fewer than 2 characters is rejected. -/
theorem C7_counterexample :
    extractStoreName "タ" ≠ "" ∧
    (cleanTitle (String.toList "タ")).length < 2 ∧
    cleanTitle (String.toList "タ") = String.toList (extractStoreName "タ") := by
  decide

/-- Witness for C7_amended_validity_gate: the two-letter string `ab` is
accepted verbatim. -/
theorem C7_witness : extractStoreName "ab" = String.mk ['a', 'b'] :=
  (C7_amended_validity_gate "ab").2 'a' 'b' (by decide) (by decide)

/-- C6 (corrected).  Idempotence holds for every input whose normalized
form is non-empty and is itself a fixed point of the cleaning stages.  (The
claim's unconditional version fails, see the counterexample: a removal can
splice together a new match, so the normalized form need not be clean.) -/
theorem C6_amended_idempotence (x : String)
    (h1 : extractStoreName x ≠ "")
    (h2 : cleanTitle (extractStoreName x).toList = (extractStoreName x).toList) :
    extractStoreName (extractStoreName x) = extractStoreName x := by
  have he := extractStoreName_eq x
  by_cases hg : gateRejects (cleanTitle x.toList) = true
  · rw [he, if_pos hg] at h1
    exact absurd rfl h1
  · have hx : extractStoreName x = String.mk (cleanTitle x.toList) := by
      rw [he, if_neg hg]
    rw [hx] at h2 ⊢
    rw [extractStoreName_eq (String.mk (cleanTitle x.toList)), h2, toList_mk, if_neg hg]

/-- C6 counterexample: the honorific removal in `ささんん` splices together
a fresh `さん`, so the (non-empty) normalized form re-normalizes to the
empty string. -/
theorem C6_counterexample :
    extractStoreName "ささんん" = "さん" ∧
    extractStoreName (extractStoreName "ささんん") = "" ∧
    ("さん" : String) ≠ "" := by
  decide

/-- Witness for C6_amended_idempotence at a concrete clean store name. -/
theorem C6_witness :
    extractStoreName (extractStoreName "店舗あ") = extractStoreName "店舗あ" :=
  C6_amended_idempotence "店舗あ" (by decide) (by decide)

theorem str_append_empty (s : String) : s ++ "" = s := by
  cases s
  exact congrArg String.mk (List.append_nil _)

theorem str_empty_append (s : String) : "" ++ s = s := by
  cases s
  exact congrArg String.mk rfl

theorem semiJoin_append_one (l : List String) (n : String) :
    semiJoin (l ++ [n]) = semiJoin l ++ n ++ "; " := by
  induction l with
  | nil => simp [semiJoin, str_append_empty, str_empty_append]
  | cons a rest ih => simp [semiJoin, ih, String.append_assoc]

theorem semiJoin_eq_goJoin (l : List String) (h : l ≠ []) :
    semiJoin l = goJoin l ++ "; " := by
  induction l with
  | nil => cases h rfl
  | cons a rest ih =>
    cases rest with
    | nil => simp [semiJoin, goJoin, str_append_empty]
    | cons b r2 =>
      rw [semiJoin, ih (by simp)]
      simp only [goJoin]
      simp [String.append_assoc]

theorem pushName_titles (st : AggState) (k n : String) :
    (pushName st k n).uniqueTitles = st.uniqueTitles ++ [n] := rfl

theorem pushName_combined (st : AggState) (k n : String) :
    (pushName st k n).combinedTitles = st.combinedTitles ++ n ++ "; " := rfl

theorem pushName_count (st : AggState) (k n : String) :
    (pushName st k n).collectedCount = st.collectedCount + 1 := rfl

theorem pushName_admitted (st : AggState) (k n : String) :
    (pushName st k n).admitted = st.admitted ++ [(k, n)] := rfl

theorem pushName_seen (st : AggState) (k n : String) :
    (pushName st k n).seenURLs = st.seenURLs := rfl

theorem appendTitles_mono (cap : Option Nat) :
    ∀ (entries : List (String × String)) (st : AggState),
      ∃ e, (appendTitles cap entries st).uniqueTitles = st.uniqueTitles ++ e := by
  intro entries
  induction entries with
  | nil => exact fun st => ⟨[], by simp [appendTitles]⟩
  | cons p rest ih =>
    intro st
    obtain ⟨k, n⟩ := p
    by_cases h : underCap cap st.collectedCount = true
    · obtain ⟨e, he⟩ := ih (pushName st k n)
      exact ⟨n :: e, by simp [appendTitles, h, he, pushName_titles]⟩
    · obtain ⟨e, he⟩ := ih st
      have hf : underCap cap st.collectedCount = false := by simpa using h
      exact ⟨e, by simp [appendTitles, hf, he]⟩

theorem processResult_mono (cap : Option Nat) (f g : FetchOracle) (en : EnumOracle)
    (st : AggState) (t url : String) :
    ∃ e, (processResult cap f g en st t url).uniqueTitles = st.uniqueTitles ++ e := by
  unfold processResult
  split
  · exact ⟨[], by simp⟩
  · dsimp only
    split
    · exact ⟨[], by simp⟩
    · split
      · exact ⟨[], by simp⟩
      · split
        · obtain ⟨e, he⟩ := appendTitles_mono cap
            (en (fetchStoreLinksFromMatome f url st.seenURLs).1)
            { st with seenURLs := (fetchStoreLinksFromMatome f url st.seenURLs).2 }
          exact ⟨e, by simpa using he⟩
        · split
          · obtain ⟨e, he⟩ := appendTitles_mono cap
              (en (fetchLinksFromListingPage g url st.seenURLs).1)
              { st with seenURLs := (fetchLinksFromListingPage g url st.seenURLs).2 }
            exact ⟨e, by simpa using he⟩
          · split
            · split
              · exact ⟨[extractStoreName t], by simp [pushName_titles]⟩
              · exact ⟨[], by simp⟩
            · exact ⟨[], by simp⟩

theorem braveLoop_mono (cap : Option Nat) (f g : FetchOracle) (en : EnumOracle) :
    ∀ (results : List BraveItem) (i : Nat) (st : AggState),
      ∃ e, (braveLoop cap f g en results i st).uniqueTitles = st.uniqueTitles ++ e := by
  intro results
  induction results with
  | nil => exact fun i st => ⟨[], by simp [braveLoop]⟩
  | cons it rest ih =>
    intro i st
    by_cases hg : (capReached cap st.collectedCount || decide (i ≥ 50)) = true
    · exact ⟨[], by simp [braveLoop, hg]⟩
    · have hgf : (capReached cap st.collectedCount || decide (i ≥ 50)) = false := by
        simpa using hg
      cases it with
      | malformed =>
        obtain ⟨e, he⟩ := ih (i + 1) st
        exact ⟨e, by simp [braveLoop, hgf, he]⟩
      | item title urlStr =>
        obtain ⟨e1, he1⟩ := processResult_mono cap f g en st title urlStr
        obtain ⟨e2, he2⟩ := ih (i + 1) (processResult cap f g en st title urlStr)
        exact ⟨e1 ++ e2, by simp [braveLoop, hgf, he2, he1]⟩

theorem combInv_push (st : AggState) (k n : String)
    (h : st.combinedTitles = semiJoin st.uniqueTitles) :
    (pushName st k n).combinedTitles = semiJoin (pushName st k n).uniqueTitles := by
  rw [pushName_combined, pushName_titles, semiJoin_append_one, h]

theorem combInv_appendTitles (cap : Option Nat) :
    ∀ (entries : List (String × String)) (st : AggState),
      st.combinedTitles = semiJoin st.uniqueTitles →
      (appendTitles cap entries st).combinedTitles
        = semiJoin (appendTitles cap entries st).uniqueTitles := by
  intro entries
  induction entries with
  | nil => intro st h; simpa [appendTitles] using h
  | cons p rest ih =>
    intro st h
    obtain ⟨k, n⟩ := p
    by_cases hc : underCap cap st.collectedCount = true
    · have := ih (pushName st k n) (combInv_push st k n h)
      simpa [appendTitles, hc] using this
    · have hf : underCap cap st.collectedCount = false := by simpa using hc
      have := ih st h
      simpa [appendTitles, hf] using this

theorem combInv_processResult (cap : Option Nat) (f g : FetchOracle) (en : EnumOracle)
    (st : AggState) (t url : String)
    (h : st.combinedTitles = semiJoin st.uniqueTitles) :
    (processResult cap f g en st t url).combinedTitles
      = semiJoin (processResult cap f g en st t url).uniqueTitles := by
  unfold processResult
  split
  · exact h
  next u hequ =>
    dsimp only
    split
    · exact h
    · split
      · exact h
      · split
        · exact combInv_appendTitles cap _ _ h
        · split
          · exact combInv_appendTitles cap _ _ h
          · split
            · split
              · exact combInv_push st (stripSlash u.render) (extractStoreName t) h
              · exact h
            · exact h

theorem combInv_braveLoop (cap : Option Nat) (f g : FetchOracle) (en : EnumOracle) :
    ∀ (results : List BraveItem) (i : Nat) (st : AggState),
      st.combinedTitles = semiJoin st.uniqueTitles →
      (braveLoop cap f g en results i st).combinedTitles
        = semiJoin (braveLoop cap f g en results i st).uniqueTitles := by
  intro results
  induction results with
  | nil => intro i st h; simpa [braveLoop] using h
  | cons it rest ih =>
    intro i st h
    by_cases hg : (capReached cap st.collectedCount || decide (i ≥ 50)) = true
    · simpa [braveLoop, hg] using h
    · have hgf : (capReached cap st.collectedCount || decide (i ≥ 50)) = false := by
        simpa using hg
      cases it with
      | malformed =>
        have := ih (i + 1) st h
        simpa [braveLoop, hgf] using this
      | item title urlStr =>
        have := ih (i + 1) (processResult cap f g en st title urlStr)
          (combInv_processResult cap f g en st title urlStr h)
        simpa [braveLoop, hgf] using this

/-- C4 (corrected).  `combinedTitles` — the string handed verbatim to the
scoring call — is fully determined by `orderedNames`, but it is the names
each followed by `"; "` concatenated: that is, `strings.Join` of the names
with separator `"; "` plus one trailing separator, not the plain join the
claim states (see the counterexample). -/
theorem C4_amended_combined_titles (fetchM fetchL : FetchOracle) (enum : EnumOracle)
    (results : List BraveItem) :
    (braveLoop (some 3) fetchM fetchL enum results 0 initAgg).combinedTitles
      = semiJoin (braveLoop (some 3) fetchM fetchL enum results 0 initAgg).uniqueTitles ∧
    ((braveLoop (some 3) fetchM fetchL enum results 0 initAgg).uniqueTitles ≠ [] →
      (SearchBrave fetchM fetchL enum results).1
        = goJoin (braveLoop (some 3) fetchM fetchL enum results 0 initAgg).uniqueTitles
          ++ "; ") := by
  have hinv := combInv_braveLoop (some 3) fetchM fetchL enum results 0 initAgg rfl
  refine ⟨hinv, fun hne => ?_⟩
  have hemp : (braveLoop (some 3) fetchM fetchL enum results 0 initAgg).uniqueTitles.isEmpty
      = false := by
    cases hL : (braveLoop (some 3) fetchM fetchL enum results 0 initAgg).uniqueTitles with
    | nil => exact absurd hL hne
    | cons a r => rfl
  have hfin : (SearchBrave fetchM fetchL enum results).1
      = (braveLoop (some 3) fetchM fetchL enum results 0 initAgg).combinedTitles := by
    simp [SearchBrave, hemp]
  rw [hfin, hinv, semiJoin_eq_goJoin _ hne]

/-- C4 counterexample: on a single direct detail-page result the scoring
input carries a trailing separator, so it differs from the plain join of
`orderedNames`. -/
theorem C4_counterexample :
    (SearchBrave noFetch noFetch id results1).1
      ≠ goJoin (braveLoop (some 3) noFetch noFetch id results1 0 initAgg).uniqueTitles := by
  decide

/-- Witness for C4_amended_combined_titles at the single-result input. -/
theorem C4_witness :
    (SearchBrave noFetch noFetch id results1).1
      = goJoin (braveLoop (some 3) noFetch noFetch id results1 0 initAgg).uniqueTitles
        ++ "; " :=
  (C4_amended_combined_titles noFetch noFetch id results1).2 (by decide)

theorem underCap_none (x : Nat) : underCap none x = true := rfl

theorem underCap_three (x : Nat) : underCap (some 3) x = true ↔ x < 3 := by
  simp [underCap]

theorem capRel_appendTitles :
    ∀ (entries : List (String × String)) (c u : AggState), CapRel c u →
      CapRel (appendTitles (some 3) entries c) (appendTitles none entries u) := by
  intro entries
  induction entries with
  | nil => intro c u h; simpa [appendTitles] using h
  | cons p rest ih =>
    rintro c u (⟨rfl, hle, hcnt⟩ | ⟨h3, htk, hlen⟩)
    · obtain ⟨k, n⟩ := p
      by_cases hlt : c.collectedCount < 3
      · have hcap : underCap (some 3) c.collectedCount = true := by
          simp [underCap, hlt]
        have hrel : CapRel (pushName c k n) (pushName c k n) := by
          left
          refine ⟨rfl, ?_, ?_⟩
          · rw [pushName_count]; omega
          · rw [pushName_count, pushName_titles]
            simp [hcnt]
        have h2 := ih _ _ hrel
        simpa [appendTitles, hcap, underCap_none] using h2
      · have hc3 : c.collectedCount = 3 := by omega
        have hcap : underCap (some 3) c.collectedCount = false := by
          simp [underCap, hc3]
        have hlen3 : c.uniqueTitles.length = 3 := by omega
        have hfro : CapRel c (pushName c k n) := by
          right
          refine ⟨hc3, ?_, ?_⟩
          · rw [pushName_titles, List.take_append_eq_append_take, hlen3]
            simp [List.take_of_length_le hlen3.le]
          · rw [pushName_titles]
            simp
            omega
        have h2 := ih _ _ hfro
        simpa [appendTitles, hcap, underCap_none] using h2
    · obtain ⟨k, n⟩ := p
      have hcap : underCap (some 3) c.collectedCount = false := by
        simp [underCap, h3]
      have hfro : CapRel c (pushName u k n) := by
        right
        refine ⟨h3, ?_, ?_⟩
        · rw [pushName_titles, List.take_append_eq_append_take]
          have h0 : 3 - u.uniqueTitles.length = 0 := by omega
          rw [h0]
          simpa using htk
        · rw [pushName_titles]
          simp
          omega
      have h2 := ih _ _ hfro
      simpa [appendTitles, hcap, underCap_none] using h2

theorem capRel_processResult (f g : FetchOracle) (en : EnumOracle) (u : AggState)
    (t url : String) (hle : u.collectedCount ≤ 3)
    (hcnt : u.collectedCount = u.uniqueTitles.length) :
    CapRel (processResult (some 3) f g en u t url)
      (processResult none f g en u t url) := by
  unfold processResult
  split
  · exact Or.inl ⟨rfl, hle, hcnt⟩
  next v heqv =>
    dsimp only
    split
    · exact Or.inl ⟨rfl, hle, hcnt⟩
    · split
      · exact Or.inl ⟨rfl, hle, hcnt⟩
      · split
        · exact capRel_appendTitles _ _ _ (Or.inl ⟨rfl, hle, hcnt⟩)
        · split
          · exact capRel_appendTitles _ _ _ (Or.inl ⟨rfl, hle, hcnt⟩)
          · split
            · by_cases hct : extractStoreName t ≠ ""
              · by_cases hlt : u.collectedCount < 3
                · have e1 : (decide (extractStoreName t ≠ "")
                      && underCap (some 3) u.collectedCount) = true := by
                    simp [hct, underCap, hlt]
                  have e2 : (decide (extractStoreName t ≠ "")
                      && underCap none u.collectedCount) = true := by
                    simp [hct, underCap]
                  rw [if_pos e1, if_pos e2]
                  left
                  refine ⟨rfl, ?_, ?_⟩
                  · simp [pushName]; omega
                  · simp [pushName, hcnt]
                · have hc3 : u.collectedCount = 3 := by omega
                  have e1 : (decide (extractStoreName t ≠ "")
                      && underCap (some 3) u.collectedCount) = false := by
                    simp [underCap, hc3]
                  have e2 : (decide (extractStoreName t ≠ "")
                      && underCap none u.collectedCount) = true := by
                    simp [hct, underCap]
                  rw [if_neg (by rw [e1]; decide), if_pos e2]
                  right
                  have hlen3 : u.uniqueTitles.length = 3 := by omega
                  refine ⟨hc3, ?_, ?_⟩
                  · show u.uniqueTitles
                        = ((pushName u (stripSlash v.render) (extractStoreName t)).uniqueTitles).take 3
                    rw [pushName_titles, List.take_append_eq_append_take, hlen3]
                    simp [List.take_of_length_le hlen3.le]
                  · show 3 ≤ ((pushName u (stripSlash v.render) (extractStoreName t)).uniqueTitles).length
                    rw [pushName_titles]
                    simp
                    omega
              · have hctf : ¬ (extractStoreName t ≠ "") := hct
                have e1 : (decide (extractStoreName t ≠ "")
                    && underCap (some 3) u.collectedCount) = false := by
                  simp [hctf]
                have e2 : (decide (extractStoreName t ≠ "")
                    && underCap none u.collectedCount) = false := by
                  simp [hctf]
                rw [if_neg (by rw [e1]; decide), if_neg (by rw [e2]; decide)]
                exact Or.inl ⟨rfl, hle, hcnt⟩
            · exact Or.inl ⟨rfl, hle, hcnt⟩

theorem capRel_braveLoop (f g : FetchOracle) (en : EnumOracle) :
    ∀ (results : List BraveItem) (i : Nat) (c u : AggState), CapRel c u →
      (braveLoop (some 3) f g en results i c).uniqueTitles
        = ((braveLoop none f g en results i u).uniqueTitles).take 3 := by
  intro results
  induction results with
  | nil =>
    rintro i c u (⟨rfl, hle, hcnt⟩ | ⟨h3, htk, hlen⟩)
    · simp [braveLoop]
      omega
    · simp [braveLoop, htk]
  | cons it rest ih =>
    rintro i c u hrel
    by_cases hi : 50 ≤ i
    · have hc : braveLoop (some 3) f g en (it :: rest) i c = c := by
        simp [braveLoop, hi]
      have hu : braveLoop none f g en (it :: rest) i u = u := by
        simp [braveLoop, hi]
      rw [hc, hu]
      rcases hrel with ⟨rfl, hle, hcnt⟩ | ⟨h3, htk, hlen⟩
      · have hlen3 : c.uniqueTitles.length ≤ 3 := by omega
        exact (List.take_of_length_le hlen3).symm
      · exact htk
    · rcases hrel with ⟨rfl, hle, hcnt⟩ | ⟨h3, htk, hlen⟩
      · by_cases h3c : 3 ≤ c.collectedCount
        · have hc : braveLoop (some 3) f g en (it :: rest) i c = c := by
            simp [braveLoop, capReached, h3c]
          rw [hc]
          obtain ⟨e, he⟩ := braveLoop_mono none f g en (it :: rest) i c
          rw [he, List.take_append_eq_append_take]
          have hl3 : c.uniqueTitles.length = 3 := by omega
          rw [hl3]
          simp [List.take_of_length_le hl3.le]
        · have hcapf : capReached (some 3) c.collectedCount = false := by
            simp [capReached]
            omega
          cases it with
          | malformed =>
            have h2 := ih (i + 1) c c (Or.inl ⟨rfl, hle, hcnt⟩)
            simpa [braveLoop, hcapf, hi] using h2
          | item title urlStr =>
            have hrel2 := capRel_processResult f g en c title urlStr hle hcnt
            have h2 := ih (i + 1) _ _ hrel2
            simpa [braveLoop, hcapf, hi] using h2
      · have hc : braveLoop (some 3) f g en (it :: rest) i c = c := by
          simp [braveLoop, capReached, h3]
        rw [hc]
        obtain ⟨e, he⟩ := braveLoop_mono none f g en (it :: rest) i u
        rw [he, List.take_append_eq_append_take]
        have h0 : 3 - u.uniqueTitles.length = 0 := by omega
        rw [h0]
        simpa using htk

/-- C2 (confirmed).  With the source's cap `maxTitles = 3`, the emitted
`uniqueTitles` is always the 3-prefix of what the identical scan admits
with the cap removed (the input's admissible candidates in scan order): so
its length never exceeds 3, and any input admitting at least 4 candidates
yields exactly the first 3. -/
theorem C2_cap_enforcement (fetchM fetchL : FetchOracle) (enum : EnumOracle)
    (results : List BraveItem) :
    (braveLoop (some 3) fetchM fetchL enum results 0 initAgg).uniqueTitles
      = ((braveLoop none fetchM fetchL enum results 0 initAgg).uniqueTitles).take 3 ∧
    (braveLoop (some 3) fetchM fetchL enum results 0 initAgg).uniqueTitles.length ≤ 3 ∧
    (4 ≤ (braveLoop none fetchM fetchL enum results 0 initAgg).uniqueTitles.length →
      (braveLoop (some 3) fetchM fetchL enum results 0 initAgg).uniqueTitles.length
        = 3) := by
  have h := capRel_braveLoop fetchM fetchL enum results 0 initAgg initAgg
    (Or.inl ⟨rfl, by decide, rfl⟩)
  refine ⟨h, ?_, ?_⟩
  · rw [h, List.length_take]
    omega
  · intro h4
    rw [h, List.length_take]
    omega

/-- Witness for C2_cap_enforcement: four admissible direct detail results
yield exactly three names. -/
theorem C2_witness :
    (braveLoop (some 3) noFetch noFetch id results4 0 initAgg).uniqueTitles.length
      = 3 :=
  (C2_cap_enforcement noFetch noFetch id results4).2.2 (by decide)

theorem map_fst_append_one (l : List (String × String)) (k n : String) :
    (l ++ [(k, n)]).map Prod.fst = l.map Prod.fst ++ [k] := by simp

theorem map_snd_append_one (l : List (String × String)) (k n : String) :
    (l ++ [(k, n)]).map Prod.snd = l.map Prod.snd ++ [n] := by simp

theorem extInv_processAnchor (seen0 : List String) (base : GoURL) (a : Anchor)
    (st : List (String × String) × List String) (h : ExtInv seen0 st) :
    ExtInv seen0 (processAnchor base st a) := by
  obtain ⟨h1, h2, h3⟩ := h
  unfold processAnchor
  split
  · exact ⟨h1, h2, h3⟩
  next u hequ =>
    split
    · dsimp only
      split
      · exact ⟨h1, h2, h3⟩
      next hcont =>
        have hnot : normKey u ∉ st.2 := by simpa using hcont
        split
        next hct =>
          refine ⟨?_, ?_, ?_⟩
          · rw [List.map_append]
            simp only [List.map_cons, List.map_nil]
            rw [List.nodup_append]
            refine ⟨h1, List.nodup_singleton _, ?_⟩
            intro k hk
            simp only [List.mem_singleton]
            intro hkk
            exact hnot (hkk ▸ (h2 k hk).1)
          · intro k hk
            rw [List.map_append] at hk
            rcases List.mem_append.mp hk with hold | hnew
            · exact ⟨List.mem_cons_of_mem _ (h2 k hold).1, (h2 k hold).2⟩
            · simp only [List.map_cons, List.map_nil, List.mem_singleton] at hnew
              subst hnew
              exact ⟨List.mem_cons_self _ _, fun hbad => hnot (h3 _ hbad)⟩
          · intro x hx
            exact List.mem_cons_of_mem _ (h3 x hx)
        · exact ⟨h1, h2, h3⟩
    · exact ⟨h1, h2, h3⟩

theorem extInv_foldl (seen0 : List String) (base : GoURL) :
    ∀ (anchors : List Anchor) (st : List (String × String) × List String),
      ExtInv seen0 st → ExtInv seen0 (anchors.foldl (processAnchor base) st) := by
  intro anchors
  induction anchors with
  | nil => intro st h; simpa using h
  | cons a rest ih =>
    intro st h
    rw [List.foldl_cons]
    exact ih _ (extInv_processAnchor seen0 base a st h)

theorem extInv_extract (fetch : FetchOracle) (url : String) (seen0 : List String) :
    ExtInv seen0 (extractStoreLinks fetch url seen0) := by
  unfold extractStoreLinks
  split
  · exact ⟨by simp, by simp, fun x hx => hx⟩
  · split
    · exact ⟨by simp, by simp, fun x hx => hx⟩
    · exact extInv_foldl seen0 _ _ _ ⟨by simp, by simp, fun x hx => hx⟩

theorem goodAgg_appendTitles (cap : Option Nat) :
    ∀ (entries : List (String × String)) (st : AggState), GoodAgg st →
      (entries.map Prod.fst).Nodup →
      (∀ k ∈ entries.map Prod.fst,
        k ∈ st.seenURLs ∧ k ∉ st.admitted.map Prod.fst) →
      GoodAgg (appendTitles cap entries st) := by
  intro entries
  induction entries with
  | nil => intro st h _ _; simpa [appendTitles] using h
  | cons p rest ih =>
    intro st h hnd hks
    obtain ⟨k, n⟩ := p
    obtain ⟨h1, h2, h3⟩ := h
    simp only [List.map_cons, List.nodup_cons] at hnd
    obtain ⟨hknotrest, hndrest⟩ := hnd
    have hkprops := hks k (by simp)
    by_cases hc : underCap cap st.collectedCount = true
    · have hst' : GoodAgg (pushName st k n) := by
        refine ⟨?_, ?_, ?_⟩
        · rw [pushName_admitted, List.map_append]
          simp only [List.map_cons, List.map_nil]
          rw [List.nodup_append]
          refine ⟨h1, List.nodup_singleton _, ?_⟩
          intro k' hk'
          simp only [List.mem_singleton]
          intro hkk
          exact hkprops.2 (hkk ▸ hk')
        · intro k' hk'
          rw [pushName_admitted, List.map_append] at hk'
          rw [pushName_seen]
          rcases List.mem_append.mp hk' with hold | hnew
          · exact h2 k' hold
          · simp only [List.map_cons, List.map_nil, List.mem_singleton] at hnew
            subst hnew
            exact hkprops.1
        · rw [pushName_titles, pushName_admitted, List.map_append, h3]
          rfl
      have hrest : ∀ k' ∈ rest.map Prod.fst,
          k' ∈ (pushName st k n).seenURLs
            ∧ k' ∉ (pushName st k n).admitted.map Prod.fst := by
        intro k' hk'
        have hp := hks k' (by simp [hk'])
        rw [pushName_seen, pushName_admitted, List.map_append]
        refine ⟨hp.1, ?_⟩
        intro hbad
        rcases List.mem_append.mp hbad with hold | hnew
        · exact hp.2 hold
        · simp only [List.map_cons, List.map_nil, List.mem_singleton] at hnew
          exact hknotrest (hnew ▸ hk')
      have := ih (pushName st k n) hst' hndrest hrest
      simpa [appendTitles, hc] using this
    · have hcf : underCap cap st.collectedCount = false := by simpa using hc
      have := ih st ⟨h1, h2, h3⟩ hndrest
        (fun k' hk' => hks k' (by simp [hk']))
      simpa [appendTitles, hcf] using this

theorem goodAgg_extractBranch (cap : Option Nat) (en : EnumOracle)
    (henum : ∀ l, List.Perm (en l) l) (st : AggState)
    (res : List (String × String) × List String)
    (hres : ExtInv st.seenURLs res) (h : GoodAgg st) :
    GoodAgg (appendTitles cap (en res.1) { st with seenURLs := res.2 }) := by
  obtain ⟨e1, e2, e3⟩ := hres
  obtain ⟨h1, h2, h3⟩ := h
  apply goodAgg_appendTitles
  · exact ⟨h1, fun k hk => e3 _ (h2 k hk), h3⟩
  · exact ((henum res.1).map Prod.fst).nodup_iff.mpr e1
  · intro k hk
    have hk' : k ∈ res.1.map Prod.fst := ((henum res.1).map Prod.fst).mem_iff.mp hk
    obtain ⟨hkin, hknot⟩ := e2 k hk'
    exact ⟨hkin, fun hbad => hknot (h2 k hbad)⟩

theorem goodAgg_processResult (cap : Option Nat) (f g : FetchOracle) (en : EnumOracle)
    (henum : ∀ l, List.Perm (en l) l) (st : AggState) (t url : String)
    (h : GoodAgg st) : GoodAgg (processResult cap f g en st t url) := by
  unfold processResult
  split
  · exact h
  next u hequ =>
    dsimp only
    split
    · exact h
    next hcont =>
      have hnot : stripSlash u.render ∉ st.seenURLs := by simpa using hcont
      split
      · exact h
      · split
        · exact goodAgg_extractBranch cap en henum st _
            (extInv_extract f url st.seenURLs) h
        · split
          · exact goodAgg_extractBranch cap en henum st _
              (extInv_extract g url st.seenURLs) h
          · split
            · split
              · obtain ⟨h1, h2, h3⟩ := h
                refine ⟨?_, ?_, ?_⟩
                · show ((pushName st (stripSlash u.render) (extractStoreName t)).admitted.map
                    Prod.fst).Nodup
                  rw [pushName_admitted, List.map_append]
                  simp only [List.map_cons, List.map_nil]
                  rw [List.nodup_append]
                  refine ⟨h1, List.nodup_singleton _, ?_⟩
                  intro k' hk'
                  simp only [List.mem_singleton]
                  intro hkk
                  exact hnot (hkk ▸ (h2 k' hk'))
                · intro k' hk'
                  show k' ∈ stripSlash u.render :: st.seenURLs
                  have hk2 : k' ∈ ((pushName st (stripSlash u.render)
                      (extractStoreName t)).admitted.map Prod.fst) := hk'
                  rw [pushName_admitted, List.map_append] at hk2
                  rcases List.mem_append.mp hk2 with hold | hnew
                  · exact List.mem_cons_of_mem _ (h2 k' hold)
                  · simp only [List.map_cons, List.map_nil, List.mem_singleton] at hnew
                    subst hnew
                    exact List.mem_cons_self _ _
                · show (pushName st (stripSlash u.render)
                      (extractStoreName t)).uniqueTitles
                    = (pushName st (stripSlash u.render)
                      (extractStoreName t)).admitted.map Prod.snd
                  rw [pushName_titles, pushName_admitted, map_snd_append_one, h3]
              · exact h
            · exact h

theorem goodAgg_braveLoop (f g : FetchOracle) (en : EnumOracle)
    (henum : ∀ l, List.Perm (en l) l) :
    ∀ (results : List BraveItem) (i : Nat) (st : AggState), GoodAgg st →
      GoodAgg (braveLoop (some 3) f g en results i st) := by
  intro results
  induction results with
  | nil => intro i st h; simpa [braveLoop] using h
  | cons it rest ih =>
    intro i st h
    by_cases hg : (capReached (some 3) st.collectedCount || decide (i ≥ 50)) = true
    · simpa [braveLoop, hg] using h
    · have hgf : (capReached (some 3) st.collectedCount || decide (i ≥ 50)) = false := by
        simpa using hg
      cases it with
      | malformed =>
        have := ih (i + 1) st h
        simpa [braveLoop, hgf] using this
      | item title urlStr =>
        have := ih (i + 1) _ (goodAgg_processResult (some 3) f g en henum st title urlStr h)
        simpa [braveLoop, hgf] using this

/-- C3 (confirmed).  Over a whole run of the aggregation loop (with the
shared seen set threaded through all branches), the admitted CandidateKeys
are pairwise distinct and `uniqueTitles` is exactly the admitted names in
order — so a given key contributes at most one entry to the ordered output,
regardless of which branch discovered it or in which order pages were
processed. -/
theorem C3_dedup_across_branches (fetchM fetchL : FetchOracle) (enum : EnumOracle)
    (results : List BraveItem) (henum : ∀ l, List.Perm (enum l) l) :
    ((braveLoop (some 3) fetchM fetchL enum results 0 initAgg).admitted.map
      Prod.fst).Nodup ∧
    (braveLoop (some 3) fetchM fetchL enum results 0 initAgg).uniqueTitles
      = (braveLoop (some 3) fetchM fetchL enum results 0 initAgg).admitted.map
          Prod.snd := by
  have h := goodAgg_braveLoop fetchM fetchL enum henum results 0 initAgg
    ⟨by simp [initAgg], by simp [initAgg], rfl⟩
  exact ⟨h.1, h.2.2⟩

/-- Witness for C3_dedup_across_branches on the concrete hub-page input. -/
theorem C3_witness :
    ((braveLoop (some 3) fetchC1 fetchC1 id resultsC1 0 initAgg).admitted.map
      Prod.fst).Nodup ∧
    (braveLoop (some 3) fetchC1 fetchC1 id resultsC1 0 initAgg).uniqueTitles
      = (braveLoop (some 3) fetchC1 fetchC1 id resultsC1 0 initAgg).admitted.map
          Prod.snd :=
  C3_dedup_across_branches fetchC1 fetchC1 id resultsC1 (fun l => List.Perm.refl l)

theorem perm_short {α : Type} {l m : List α} (h : List.Perm l m)
    (hm : m.length ≤ 1) : l = m := by
  cases m with
  | nil => exact h.eq_nil
  | cons a r =>
    cases r with
    | nil => exact List.perm_singleton.mp h
    | cons b r2 => simp at hm

theorem det_processResult (cap : Option Nat) (f g : FetchOracle)
    (en1 en2 : EnumOracle)
    (h1 : ∀ l, List.Perm (en1 l) l) (h2 : ∀ l, List.Perm (en2 l) l)
    (hf : ∀ url seen, ((fetchStoreLinksFromMatome f url seen).1).length ≤ 1)
    (hg : ∀ url seen, ((fetchLinksFromListingPage g url seen).1).length ≤ 1)
    (st : AggState) (t url : String) :
    processResult cap f g en1 st t url = processResult cap f g en2 st t url := by
  unfold processResult
  split
  · rfl
  next u hequ =>
    dsimp only
    split
    · rfl
    · split
      · rfl
      · split
        · have hs := hf url st.seenURLs
          rw [perm_short (h1 _) hs, perm_short (h2 _) hs]
        · split
          · have hs := hg url st.seenURLs
            rw [perm_short (h1 _) hs, perm_short (h2 _) hs]
          · split
            · split
              · rfl
              · rfl
            · rfl

theorem det_braveLoop (cap : Option Nat) (f g : FetchOracle) (en1 en2 : EnumOracle)
    (h1 : ∀ l, List.Perm (en1 l) l) (h2 : ∀ l, List.Perm (en2 l) l)
    (hf : ∀ url seen, ((fetchStoreLinksFromMatome f url seen).1).length ≤ 1)
    (hg : ∀ url seen, ((fetchLinksFromListingPage g url seen).1).length ≤ 1) :
    ∀ (results : List BraveItem) (i : Nat) (st : AggState),
      braveLoop cap f g en1 results i st = braveLoop cap f g en2 results i st := by
  intro results
  induction results with
  | nil => intro i st; rfl
  | cons it rest ih =>
    intro i st
    by_cases hc : (capReached cap st.collectedCount || decide (i ≥ 50)) = true
    · simp [braveLoop, hc]
    · have hcf : (capReached cap st.collectedCount || decide (i ≥ 50)) = false := by
        simpa using hc
      cases it with
      | malformed =>
        have e1 : braveLoop cap f g en1 (BraveItem.malformed :: rest) i st
            = braveLoop cap f g en1 rest (i + 1) st := by
          simp [braveLoop, hcf]
        have e2 : braveLoop cap f g en2 (BraveItem.malformed :: rest) i st
            = braveLoop cap f g en2 rest (i + 1) st := by
          simp [braveLoop, hcf]
        rw [e1, e2]
        exact ih (i + 1) st
      | item title urlStr =>
        have e1 : braveLoop cap f g en1 (BraveItem.item title urlStr :: rest) i st
            = braveLoop cap f g en1 rest (i + 1)
                (processResult cap f g en1 st title urlStr) := by
          simp [braveLoop, hcf]
        have e2 : braveLoop cap f g en2 (BraveItem.item title urlStr :: rest) i st
            = braveLoop cap f g en2 rest (i + 1)
                (processResult cap f g en2 st title urlStr) := by
          simp [braveLoop, hcf]
        rw [e1, e2, det_processResult cap f g en1 en2 h1 h2 hf hg st title urlStr]
        exact ih (i + 1) _

/-- Every extraction from a page served by `fetchC1w` yields at most one
mapping entry, whatever the ambient seen set: the first anchor is never a
store page, and the second and third anchors share one CandidateKey, so at
most one of them is admitted.  This is the "at most one admitted candidate
per fetched page" condition for a page carrying several anchors. -/
theorem fetchC1w_small (url : String) (seen : List String) :
    ((extractStoreLinks fetchC1w url seen).1).length ≤ 1 := by
  by_cases hu : url = hubURL
  · subst hu
    have he : extractStoreLinks fetchC1w hubURL seen
        = hubAnchorsW.foldl (processAnchor baseW) ([], seen) := by
      unfold extractStoreLinks
      rw [show fetchC1w hubURL = some hubAnchorsW from by simp [fetchC1w]]
      rw [show parseURL hubURL = some baseW from by decide]
    have s1 : ∀ st, processAnchor baseW st
        ⟨"https://tabelog.com/tokyo/A1311/A131105/13034566/review/999/", "口コミ"⟩
          = st := by
      intro st
      simp [processAnchor,
        show resolveHref baseW
            "https://tabelog.com/tokyo/A1311/A131105/13034566/review/999/"
          = some ⟨"https", "tabelog.com",
              "/tokyo/A1311/A131105/13034566/review/999/"⟩ from by decide,
        show isStorePage ⟨"https", "tabelog.com",
            "/tokyo/A1311/A131105/13034566/review/999/"⟩ = false from by decide]
    have s2skip : ∀ (m : List (String × String)) (sn : List String) (tx : String),
        keyW ∈ sn → processAnchor baseW (m, sn) ⟨storeURL1, tx⟩ = (m, sn) := by
      intro m sn tx hk
      simp [processAnchor,
        show resolveHref baseW storeURL1 = some storeUW from by decide,
        show isStorePage storeUW = true from by decide,
        show normKey storeUW = keyW from by decide,
        hk]
    have s2add : ∀ (m : List (String × String)) (sn : List String),
        keyW ∉ sn → processAnchor baseW (m, sn) ⟨storeURL1, "店舗あ"⟩
          = (m ++ [(keyW, "店舗あ")], keyW :: sn) := by
      intro m sn hk
      simp [processAnchor,
        show resolveHref baseW storeURL1 = some storeUW from by decide,
        show isStorePage storeUW = true from by decide,
        show normKey storeUW = keyW from by decide,
        hk]
      rw [show extractStoreName ⟨goTrimSpace ['店', '舗', 'あ']⟩ = "店舗あ"
          from by decide]
      rw [if_neg (show ¬("店舗あ" : String) = "" from by decide)]
    rw [he]
    simp only [hubAnchorsW, List.foldl_cons, List.foldl_nil]
    rw [s1]
    by_cases hk : keyW ∈ seen
    · rw [s2skip [] seen "店舗あ" hk, s2skip [] seen "店舗い" hk]
      simp
    · rw [s2add [] seen hk]
      simp only [List.nil_append]
      rw [s2skip [(keyW, "店舗あ")] (keyW :: seen) "店舗い" (by simp)]
      simp
  · have hnone : fetchC1w url = none := by simp [fetchC1w, hu]
    unfold extractStoreLinks
    rw [hnone]
    simp

/-- C1 (corrected).  The aggregation is deterministic given the inputs AND
the map-iteration orders the Go runtime chooses for the extracted mappings:
for any two legitimate iteration orders (permutation oracles), the runs
agree whenever each fetched hub/listing page yields at most one admitted
candidate — no matter how many anchors the page carries, as only the
extracted mapping (the admitted candidates) is bounded.  The unconditional
claim fails (see the counterexample): names of a multi-candidate page are
appended in Go's randomized map order, not in the extractor's discovery
order. -/
theorem C1_amended_determinism (fetchM fetchL : FetchOracle)
    (enum1 enum2 : EnumOracle) (results : List BraveItem)
    (h1 : ∀ l, List.Perm (enum1 l) l) (h2 : ∀ l, List.Perm (enum2 l) l)
    (hf : ∀ url seen, ((fetchStoreLinksFromMatome fetchM url seen).1).length ≤ 1)
    (hg : ∀ url seen, ((fetchLinksFromListingPage fetchL url seen).1).length ≤ 1) :
    braveLoop (some 3) fetchM fetchL enum1 results 0 initAgg
      = braveLoop (some 3) fetchM fetchL enum2 results 0 initAgg ∧
    SearchBrave fetchM fetchL enum1 results
      = SearchBrave fetchM fetchL enum2 results := by
  have h := det_braveLoop (some 3) fetchM fetchL enum1 enum2 h1 h2 hf hg
    results 0 initAgg
  refine ⟨h, ?_⟩
  unfold SearchBrave
  rw [h]

/-- C1 counterexample: a hub page with two admitted anchors.  Both `id` and
`List.reverse` are legitimate map-iteration orders (permutations of the
extracted mapping), yet they produce different `orderedNames`; the identity
order gives the extractor's discovery order, the reversed one does not. -/
theorem C1_counterexample :
    List.Perm
      (List.reverse
        [(stripSlash storeURL1, "店舗あ"), (stripSlash storeURL2, "店舗い")])
      [(stripSlash storeURL1, "店舗あ"), (stripSlash storeURL2, "店舗い")] ∧
    (braveLoop (some 3) fetchC1 fetchC1 id resultsC1 0 initAgg).uniqueTitles
      = ["店舗あ", "店舗い"] ∧
    (braveLoop (some 3) fetchC1 fetchC1 List.reverse resultsC1 0 initAgg).uniqueTitles
      = ["店舗い", "店舗あ"] ∧
    (["店舗あ", "店舗い"] : List String) ≠ ["店舗い", "店舗あ"] := by
  refine ⟨by decide, by decide, by decide, by decide⟩

/-- Witness for C1_amended_determinism: the hub page carries three anchors
of which exactly one is admitted, so the extraction actually runs and its
one-entry mapping is iterated under two distinct orders (`id` and
`List.reverse`) with the same outcome. -/
theorem C1_witness :
    SearchBrave fetchC1w fetchC1w id resultsC1
      = SearchBrave fetchC1w fetchC1w List.reverse resultsC1 :=
  (C1_amended_determinism fetchC1w fetchC1w id List.reverse resultsC1
    (fun l => List.Perm.refl l) (fun l => List.reverse_perm l)
    (fun url seen => fetchC1w_small url seen)
    (fun url seen => fetchC1w_small url seen)).2
